import Mathlib

/-!
Verification of the 99tech code-challenge backend.

Part 1 — `src/problem4/sum_to_n.js`: four implementations of summation to `n`,
embedded over `Int` (JavaScript numbers are exact on the integer ranges the
file's own header restricts inputs to).

Part 2 — `src/problem5/routes/bookRoutes.ts`: the id-parameter guard of the
book CRUD routes, embedded as pure functions over an explicit book store.

Part 3 — `src/problem6/README.md`: the award-and-leaderboard protocol.  The
repository contains only the design document for this subsystem, no
implementation, so the protocol is modelled from the specification text and
the README's key code paths (idempotency bucket, replay guard, ZINCRBY score
update, ZREVRANGE read, sequence-numbered change events).

The file is laid out with all definitions first, then all theorems.
-/

/-! ## Definitions, part 1: sum_to_n (src/problem4/sum_to_n.js) -/

/-- `sum_to_n_a`: the loop implementation.  `if (n < 0) return 0;` then
`for (let i = 1; i <= n; ++i) sum += i`. -/
def sum_to_n_a (n : Int) : Int :=
  if n < 0 then 0
  else (List.range n.toNat).foldl (fun sum i => sum + (Int.ofNat i + 1)) 0

/-- `sum_to_n_b`: the closed formula `n * (n + 1) / 2` (exact: the product is
always even, so JS float division agrees with integer division here). -/
def sum_to_n_b (n : Int) : Int :=
  if n < 0 then 0 else n * (n + 1) / 2

/-- `sum_to_n_c`: the recursive implementation.
`if (n <= 0) return 0; return n + sum_to_n_c(n - 1);`. -/
def sum_to_n_c (n : Int) : Int :=
  if _h : n ≤ 0 then 0 else n + sum_to_n_c (n - 1)
termination_by n.toNat
decreasing_by omega

/-- `sum_to_n_d`: `Array.from({length: n}, (_, i) => i + 1)` followed by a
left-to-right `reduce((sum, num) => sum + num, 0)`. -/
def sum_to_n_d (n : Int) : Int :=
  if n < 0 then 0
  else ((List.range n.toNat).map (fun i => Int.ofNat i + 1)).foldl
    (fun sum num => sum + num) 0

/-! ## Definitions, part 2: book routes (src/problem5/routes/bookRoutes.ts) -/

/-- A book row, mirroring the `Book` entity of `src/problem5/entities/Book.ts`:
`title`, `author` and `language` are non-nullable columns (`language` defaults
to `"English"`), the remaining columns are nullable. -/
structure Book where
  id : Int
  title : String
  author : String
  year : Option Int
  genre : Option String
  isbn : Option String
  bookDescription : Option String
  pageCount : Option Int
  rating : Option Float
  price : Option Float
  coverImage : Option String
  publisher : Option String
  language : String

/-- The JSON body accepted by `PUT /api/books/:id`; every field may be absent. -/
structure BookBody where
  title : Option String
  author : Option String
  year : Option Int
  genre : Option String
  isbn : Option String
  bookDescription : Option String
  pageCount : Option Int
  rating : Option Float
  price : Option Float
  coverImage : Option String
  publisher : Option String
  language : Option String

/-- The responses the three `/:id` handlers can produce. -/
inductive BookResponse where
  | okBook (b : Book)
  | deleted (message : String)
  | badRequest (error : String)
  | notFound (error : String)

/-- JavaScript truthiness of an optional string (absent and `""` are falsy). -/
def truthy (o : Option String) : Bool :=
  match o with
  | none => false
  | some s => !(s == "")

/-- Characters skipped by `parseInt` before the number. -/
def isWhitespaceChar (c : Char) : Bool :=
  c == ' ' || c == '\t' || c == '\n' || c == '\r'

/-- Leading decimal digits of a character list; `none` when there are none. -/
def parseDigits (cs : List Char) : Option Nat :=
  let ds := cs.takeWhile (fun c => c.isDigit)
  if ds.isEmpty then none
  else some (ds.foldl (fun n c => n * 10 + (c.toNat - '0'.toNat)) 0)

/-- JavaScript `parseInt(s)` (radix 10): skip leading whitespace, optional
sign, then leading decimal digits; `none` models `NaN` (no parseable digits).
The `0x` hex prefix of `parseInt` is not modelled: it affects the value, never
whether the result is `NaN`, and the routes only branch on `NaN`-ness. -/
def jsParseInt (s : String) : Option Int :=
  match s.data.dropWhile isWhitespaceChar with
  | '-' :: rest => (parseDigits rest).map (fun n => -(n : Int))
  | '+' :: rest => (parseDigits rest).map (fun n => (n : Int))
  | rest => (parseDigits rest).map (fun n => (n : Int))

/-- Handler of `GET /api/books/:id`: parse the id (400 on `NaN`), then look the
book up (404 when absent). -/
def getBookById (idStr : String) (store : List Book) : BookResponse × List Book :=
  match jsParseInt idStr with
  | none => (.badRequest "Invalid book ID", store)
  | some id =>
    match store.find? (fun b => b.id == id) with
    | none => (.notFound "Book not found", store)
    | some b => (.okBook b, store)

/-- The field assignments of the PUT handler: `title`/`author` are guaranteed
truthy by the guard before this point (the `getD` fallbacks are unreachable),
nullable fields are overwritten unconditionally, and
`language = body.language || book.language`. -/
def applyBookUpdate (book : Book) (body : BookBody) : Book :=
  { book with
    title := body.title.getD book.title
    author := body.author.getD book.author
    year := body.year
    genre := body.genre
    isbn := body.isbn
    bookDescription := body.bookDescription
    pageCount := body.pageCount
    rating := body.rating
    price := body.price
    coverImage := body.coverImage
    publisher := body.publisher
    language := if truthy body.language then body.language.getD book.language else book.language }

/-- Handler of `PUT /api/books/:id`: parse the id (400 on `NaN`), require
truthy `title` and `author`, look the book up (404 when absent), apply the
update, and save — the database's unique constraint on `isbn` turns a
collision with another row into `400 "ISBN already exists"`. -/
def putBookById (idStr : String) (body : BookBody) (store : List Book) :
    BookResponse × List Book :=
  match jsParseInt idStr with
  | none => (.badRequest "Invalid book ID", store)
  | some id =>
    if !(truthy body.title && truthy body.author) then
      (.badRequest "Title and author are required", store)
    else
      match store.find? (fun b => b.id == id) with
      | none => (.notFound "Book not found", store)
      | some book =>
        let updated := applyBookUpdate book body
        let clash :=
          match updated.isbn with
          | some s => store.any (fun b => !(b.id == id) && b.isbn == some s)
          | none => false
        if clash then (.badRequest "ISBN already exists", store)
        else (.okBook updated, store.map (fun b => if b.id == id then updated else b))

/-- Handler of `DELETE /api/books/:id`: parse the id (400 on `NaN`), look the
book up (404 when absent), then remove it. -/
def deleteBookById (idStr : String) (store : List Book) :
    BookResponse × List Book :=
  match jsParseInt idStr with
  | none => (.badRequest "Invalid book ID", store)
  | some id =>
    match store.find? (fun b => b.id == id) with
    | none => (.notFound "Book not found", store)
    | some _ => (.deleted "Book deleted successfully", store.filter (fun b => !(b.id == id)))

/-- An all-absent PUT body, used to instantiate the guard theorem. -/
def emptyBookBody : BookBody :=
  ⟨none, none, none, none, none, none, none, none, none, none, none, none⟩

/-! ## Definitions, part 3: the award-and-leaderboard protocol
(spec §3–§5; src/problem6/README.md §5, §11).

The repository ships only the design document for this subsystem, so every
definition in this part is modelled from the specification.  Retention-window
expiry of idempotency and replay records is not modelled: the claims about
them are scoped to "within the retention window", which is exactly the
no-expiry model. -/

/-- Modelled from the spec: an award request, the missing coordinator's input
(spec §3 Award Request; README §3.1). -/
structure AwardRequest where
  user_id : String
  action_type : String
  action_id : String
  idempotency_key : String
deriving DecidableEq

/-- Modelled from the spec: the versioned rule table mapping action kind to
point value (spec §4.1; README §7 rules.json). -/
structure RuleTable where
  version : Nat
  rules : List (String × Nat)
deriving DecidableEq

/-- Modelled from the spec: `lookup(action_type)` yields the points, or `none`
for `disabled` (spec §4.1: unknown action types resolve to disabled). -/
def ruleLookup (T : RuleTable) (a : String) : Option Nat :=
  (T.rules.find? (fun e => e.1 == a)).map Prod.snd

/-- Modelled from the spec: the result stored for an idempotency key and
returned to the caller (spec §4.4 step 7). -/
structure AwardResult where
  total : Int
  delta : Int
  rank : Nat
deriving DecidableEq

/-- Modelled from the spec: the payload fingerprint of an idempotency record
(spec §3 Idempotency Record; README §11 idempotency bucket with payload hash),
idealised as the collision-free pair (action_type, action_id). -/
def fingerprint (r : AwardRequest) : String × String := (r.action_type, r.action_id)

/-- Modelled from the spec: a change event
`(user_id, delta, new_total, new_rank, sequence_id)` (spec §3 Change Event). -/
structure ChangeEvent where
  user_id : String
  delta : Int
  new_total : Int
  rank : Nat
  seq : Nat
deriving DecidableEq

/-- Modelled from the spec: the sequence-id-free part of a change event,
as handed to the notifier by the coordinator (spec §4.5 publish). -/
structure EventData where
  user_id : String
  delta : Int
  new_total : Int
  rank : Nat
deriving DecidableEq

/-- Modelled from the spec: the Change Notifier — an append-only sequence with
a retained suffix window of size `retention` and a monotonically increasing
`nextSeq` (spec §4.5, §9 design note on event fan-out). -/
structure Notifier where
  retention : Nat
  events : List ChangeEvent
  nextSeq : Nat
deriving DecidableEq

/-- Modelled from the spec: a fresh notifier with retention window `W`. -/
def initNotifier (W : Nat) : Notifier := ⟨W, [], 0⟩

/-- Modelled from the spec: `publish(event)` appends the event with the next
sequence id and keeps only the retained suffix window (spec §4.5). -/
def publish (n : Notifier) (ev : EventData) : Notifier :=
  let e : ChangeEvent := ⟨ev.user_id, ev.delta, ev.new_total, ev.rank, n.nextSeq⟩
  let l := n.events ++ [e]
  { n with events := l.drop (l.length - n.retention), nextSeq := n.nextSeq + 1 }

/-- The smallest sequence id still retained by the notifier (events with ids
below it have been evicted from the window). -/
def lowWater (n : Notifier) : Nat := n.nextSeq - n.events.length

/-- Modelled from the spec: what a resuming subscriber gets — the retained
events after its position, or an explicit gap indication (spec §4.5). -/
inductive SubscribeResult where
  | events (l : List ChangeEvent)
  | gap
deriving DecidableEq

/-- Modelled from the spec: `subscribe(fromSequenceId)` — if the position is
still within the retained window, delivery resumes from just after it;
otherwise the subscriber is told explicitly about the gap (spec §4.5). -/
def subscribe (n : Notifier) (fromSeq : Nat) : SubscribeResult :=
  if fromSeq + 1 < lowWater n then .gap
  else .events (n.events.filter (fun e => fromSeq < e.seq))

/-- Modelled from the spec: a sequence of publishes against one notifier
instance. -/
def runPublish (n : Notifier) : List EventData → Notifier
  | [] => n
  | ev :: evs => runPublish (publish n ev) evs

/-- Modelled from the spec: read a user's total from the Ranked Score Store;
a user without an entry reads as 0 (spec §3 Score Entry, lazily created). -/
def getScore (l : List (String × Int)) (u : String) : Int :=
  match l with
  | [] => 0
  | p :: rest => if p.1 == u then p.2 else getScore rest u

/-- Whether the Ranked Score Store has an entry for `u`. -/
def hasUser (l : List (String × Int)) (u : String) : Bool :=
  match l with
  | [] => false
  | p :: rest => p.1 == u || hasUser rest u

/-- Modelled from the spec: write a user's total in the Ranked Score Store —
replace the user's entry, or create it lazily on first award (spec §3 Score
Entry; README ZINCRBY keeps one sorted-set member per user). -/
def setScore (l : List (String × Int)) (u : String) (v : Int) : List (String × Int) :=
  match l with
  | [] => [(u, v)]
  | p :: rest => if p.1 == u then (u, v) :: rest else p :: setScore rest u v

/-- Lexicographic less-or-equal on character lists (by code point), the
deterministic user_id ordering used for leaderboard tie-breaks. -/
def charListLe : List Char → List Char → Bool
  | [], _ => true
  | _ :: _, [] => false
  | a :: as, b :: bs =>
    if a.toNat < b.toNat then true
    else if b.toNat < a.toNat then false
    else charListLe as bs

/-- Lexicographic less-or-equal on user ids. -/
def strLe (a b : String) : Bool := charListLe a.data b.data

/-- Modelled from the spec: 1-based rank — one plus the number of entries
ranked strictly ahead (higher total, or equal total and lexicographically
smaller user_id; the tie-break is the documented deterministic choice
required by spec §4.3). -/
def rankOf (scores : List (String × Int)) (u : String) : Nat :=
  1 + (scores.filter
    (fun p => decide (getScore scores u < p.2) ||
      (p.2 == getScore scores u && (strLe p.1 u && !(p.1 == u))))).length

/-- Modelled from the spec: the full protocol state — rule table, Ranked Score
Store, Idempotency Guard records (key ↦ fingerprint and stored result), Replay
Guard records `(user_id, action_id)`, and the Change Notifier (spec §2–§4). -/
structure SystemState where
  rules : RuleTable
  scores : List (String × Int)
  idemp : List (String × ((String × String) × AwardResult))
  replay : List (String × String)
  notifier : Notifier
deriving DecidableEq

/-- Look up an idempotency record by key. -/
def idemLookup (l : List (String × ((String × String) × AwardResult)))
    (k : String) : Option ((String × String) × AwardResult) :=
  (l.find? (fun e => e.1 == k)).map Prod.snd

/-- Modelled from the spec: the outcome of one award submission
(spec §4.4 terminal states; README §3.1 response codes). -/
inductive AwardOutcome where
  | success (res : AwardResult)
  | duplicateIdem (prior : AwardResult)
  | duplicateReplay
  | conflict
  | invalidAction
deriving DecidableEq

/-- `true` exactly on a fresh successful award. -/
def AwardOutcome.isSuccess : AwardOutcome → Bool
  | .success _ => true
  | _ => false

/-- Modelled from the spec: the result of a fresh successful award —
new total, delta, and the freshly computed rank (spec §4.4 steps 4–7). -/
def awardRes (st : SystemState) (r : AwardRequest) (points : Nat) : AwardResult :=
  ⟨getScore st.scores r.user_id + points, (points : Int),
   rankOf (setScore st.scores r.user_id (getScore st.scores r.user_id + points)) r.user_id⟩

/-- Modelled from the spec: the state after a fresh successful award — the
score incremented, the idempotency record finalized with the stored result,
the replay pair marked seen, and the change event published (spec §4.4
steps 4–6 as the required single unit of work). -/
def successState (st : SystemState) (r : AwardRequest) (points : Nat) : SystemState :=
  { st with
    scores := setScore st.scores r.user_id (getScore st.scores r.user_id + points)
    idemp := (r.idempotency_key, (fingerprint r, awardRes st r points)) :: st.idemp
    replay := (r.user_id, r.action_id) :: st.replay
    notifier := publish st.notifier
      ⟨r.user_id, (points : Int), getScore st.scores r.user_id + points,
       (awardRes st r points).rank⟩ }

/-- Modelled from the spec: the Award Coordinator's per-request state machine
(spec §4.4), as one atomic step — the spec requires the dedup reservation,
the increment and the idempotency-record finalization to behave as a single
non-interruptible unit (spec §4.4 failure semantics, §5).  Order of checks:
rule resolution (terminal reject when disabled, no side effects), then the
dedup stage: an existing idempotency record with matching fingerprint replays
the stored result, a mismatching fingerprint is a conflict, and otherwise an
already-seen `(user_id, action_id)` is rejected as a replay (spec §4.2, §4.4
step 3, and the §8 scenario where an identical retry returns the prior result
while a new key for the same action is rejected as a replay).  All rejections
leave the state unchanged (spec §4.4: failures before the score update produce
no visible state change). -/
def processAward (st : SystemState) (r : AwardRequest) : AwardOutcome × SystemState :=
  match ruleLookup st.rules r.action_type with
  | none => (.invalidAction, st)
  | some points =>
    match idemLookup st.idemp r.idempotency_key with
    | some (fp, prior) =>
      if fp == fingerprint r then (.duplicateIdem prior, st)
      else (.conflict, st)
    | none =>
      if (r.user_id, r.action_id) ∈ st.replay then (.duplicateReplay, st)
      else (.success (awardRes st r points), successState st r points)

/-- Modelled from the spec: the initial state — empty score store, no dedup
records, fresh notifier with retention window `W`. -/
def initState (T : RuleTable) (W : Nat) : SystemState :=
  ⟨T, [], [], [], initNotifier W⟩

/-- Modelled from the spec: process a sequence of award submissions. -/
def runAwards (st : SystemState) : List AwardRequest → SystemState
  | [] => st
  | r :: rs => runAwards (processAward st r).2 rs

/-- Number of submissions in `rs` (processed from `st`) that are fresh
successful awards for the pair `(u, a)`. -/
def successCount (st : SystemState) (u a : String) : List AwardRequest → Nat
  | [] => 0
  | r :: rs =>
    (if r.user_id = u ∧ r.action_id = a ∧ (processAward st r).1.isSuccess then 1 else 0) +
      successCount (processAward st r).2 u a rs

/-- Modelled from the spec: the leaderboard ordering — descending total,
ties broken by ascending user_id (the one documented deterministic tie-break
required by spec §4.3/§9). -/
def scoreLe (x y : String × Int) : Prop :=
  y.2 < x.2 ∨ (x.2 = y.2 ∧ strLe x.1 y.1 = true)

instance : DecidableRel scoreLe := fun x y => by
  unfold scoreLe
  infer_instance

instance : IsTotal (String × Int) scoreLe := by
  have htot : ∀ as bs, charListLe as bs = true ∨ charListLe bs as = true := by
    intro as
    induction as with
    | nil => intro bs; left; rfl
    | cons a as ih =>
      intro bs
      cases bs with
      | nil => right; rfl
      | cons b bs =>
        by_cases hab : a.toNat < b.toNat
        · left; simp [charListLe, hab]
        · by_cases hba : b.toNat < a.toNat
          · right; simp [charListLe, hba]
          · simpa [charListLe, hab, hba] using ih bs
  refine ⟨fun x y => ?_⟩
  unfold scoreLe
  rcases lt_trichotomy x.2 y.2 with h | h | h
  · exact Or.inr (Or.inl h)
  · rcases htot x.1.data y.1.data with hc | hc
    · exact Or.inl (Or.inr ⟨h, hc⟩)
    · exact Or.inr (Or.inr ⟨h.symm, hc⟩)
  · exact Or.inl (Or.inl h)

instance : IsTrans (String × Int) scoreLe := by
  have htrans : ∀ as bs cs, charListLe as bs = true → charListLe bs cs = true →
      charListLe as cs = true := by
    intro as
    induction as with
    | nil => intro bs cs _ _; rfl
    | cons a as ih =>
      intro bs cs h1 h2
      cases bs with
      | nil => simp [charListLe] at h1
      | cons b bs =>
        cases cs with
        | nil => simp [charListLe] at h2
        | cons c cs =>
          simp only [charListLe] at h1 h2 ⊢
          by_cases hab : a.toNat < b.toNat
          · by_cases hbc : b.toNat < c.toNat
            · simp [show a.toNat < c.toNat by omega]
            · by_cases hcb : c.toNat < b.toNat
              · rw [if_neg hbc, if_pos hcb] at h2; cases h2
              · simp [show a.toNat < c.toNat by omega]
          · by_cases hba : b.toNat < a.toNat
            · rw [if_neg hab, if_pos hba] at h1; cases h1
            · rw [if_neg hab, if_neg hba] at h1
              by_cases hbc : b.toNat < c.toNat
              · simp [show a.toNat < c.toNat by omega]
              · by_cases hcb : c.toNat < b.toNat
                · rw [if_neg hbc, if_pos hcb] at h2; cases h2
                · rw [if_neg hbc, if_neg hcb] at h2
                  rw [if_neg (show ¬a.toNat < c.toNat by omega),
                    if_neg (show ¬c.toNat < a.toNat by omega)]
                  exact ih bs cs h1 h2
  refine ⟨fun x y z hxy hyz => ?_⟩
  unfold scoreLe at *
  rcases hxy with h1 | ⟨h1e, h1s⟩
  · rcases hyz with h2 | ⟨h2e, h2s⟩
    · exact Or.inl (by omega)
    · exact Or.inl (by omega)
  · rcases hyz with h2 | ⟨h2e, h2s⟩
    · exact Or.inl (by omega)
    · exact Or.inr ⟨by omega, htrans x.1.data y.1.data z.1.data h1s h2s⟩

/-- Modelled from the spec: `topK(k)` — the score entries in leaderboard
order, truncated to `k` (spec §4.3; README ZREVRANGE read path). -/
def topK (st : SystemState) (k : Nat) : List (String × Int) :=
  (List.insertionSort scoreLe st.scores).take k

/-- Modelled from the spec: an explicit compensating adjustment (the only
allowed decrease of a total — spec §3 Score Entry; README §14 manual
adjustment). -/
def applyAdjustment (st : SystemState) (u : String) (d : Int) : SystemState :=
  { st with scores := setScore st.scores u (getScore st.scores u + d) }

/-- Modelled from the spec: well-formedness of a rule table — configured
points are positive integers (spec §3 Rule Table Entry). -/
def RulesWF (T : RuleTable) : Prop := ∀ e ∈ T.rules, 0 < e.2

/-- The conclusion of the C8 step theorem, packaged for its witness:
awards never decrease any total, a successful award applies its strictly
positive delta to exactly its user, entries appear only via an award for that
user, and an adjustment decreases a total only when its delta is negative. -/
def AwardStepSafe (st : SystemState) (r : AwardRequest) : Prop :=
  (∀ v, getScore st.scores v ≤ getScore (processAward st r).2.scores v) ∧
  (∀ res st', processAward st r = (.success res, st') →
    0 < res.delta ∧
    getScore st'.scores r.user_id = getScore st.scores r.user_id + res.delta) ∧
  (∀ v, hasUser (processAward st r).2.scores v = true →
    hasUser st.scores v = true ∨ v = r.user_id) ∧
  (∀ T W, (initState T W).scores = []) ∧
  (∀ v d, getScore (applyAdjustment st v d).scores v < getScore st.scores v → d < 0)

/-- The README §7 example rule table. -/
def rulesW : RuleTable :=
  ⟨3, [("watch_video", 25), ("share_link", 5), ("daily_login", 10)]⟩

/-- Concrete request: user U reports action A1 under key K1 (§8 scenario). -/
def req1 : AwardRequest := ⟨"U", "watch_video", "A1", "K1"⟩

/-- Concrete request: same action A1 resubmitted under a fresh key K2. -/
def req2 : AwardRequest := ⟨"U", "watch_video", "A1", "K2"⟩

/-- Concrete request: a second distinct action A2 under key K3. -/
def req3 : AwardRequest := ⟨"U", "watch_video", "A2", "K3"⟩

/-- Concrete request: key K1 reused with a different payload (action A9). -/
def req4 : AwardRequest := ⟨"U", "watch_video", "A9", "K1"⟩

/-- Concrete request: unknown action type `foo` (§8 scenario). -/
def reqFoo : AwardRequest := ⟨"U", "foo", "A7", "K7"⟩

/-- The initial concrete state for the witnesses. -/
def stInit : SystemState := initState rulesW 100

/-- The state after user U's first successful award. -/
def st1 : SystemState := (processAward stInit req1).2

/-- The stored result of user U's first award: total 25, delta 25, rank 1. -/
def res1 : AwardResult := ⟨25, 25, 1⟩

/-- Concrete publish history for the notifier witness. -/
def dsW : List EventData := [⟨"U", 25, 25, 1⟩, ⟨"V", 10, 10, 2⟩, ⟨"U", 5, 30, 1⟩]

/-! ## Theorems, part 1: sum_to_n -/

theorem foldl_add_eq_sum (l : List Int) (c : Int) :
    l.foldl (fun s x => s + x) c = c + l.sum := by
  induction l generalizing c with
  | nil => simp
  | cons x l ih => simp only [List.foldl_cons, List.sum_cons, ih]; ring

theorem two_mul_range_sum (n : Nat) :
    2 * ((List.range n).map (fun i => Int.ofNat i + 1)).sum = n * (n + 1) := by
  induction n with
  | zero => simp
  | succ n ih =>
    rw [List.range_succ, List.map_append, List.sum_append]
    simp only [List.map_cons, List.map_nil, List.sum_cons, List.sum_nil]
    push_cast
    push_cast at ih
    linear_combination ih

theorem range_sum_closed (n : Nat) :
    ((List.range n).map (fun i => Int.ofNat i + 1)).sum = (n : Int) * (n + 1) / 2 := by
  rw [← two_mul_range_sum n]
  exact (Int.mul_ediv_cancel_left _ (by norm_num)).symm

theorem sum_to_n_a_eq (n : Int) :
    sum_to_n_a n = if n < 0 then 0 else n * (n + 1) / 2 := by
  unfold sum_to_n_a
  split
  · rfl
  · rename_i h
    rw [← List.foldl_map (fun i : Nat => Int.ofNat i + 1) (fun s x => s + x),
      foldl_add_eq_sum, range_sum_closed, Int.toNat_of_nonneg (by omega)]
    ring

theorem sum_to_n_d_eq (n : Int) :
    sum_to_n_d n = if n < 0 then 0 else n * (n + 1) / 2 := by
  unfold sum_to_n_d
  split
  · rfl
  · rename_i h
    rw [foldl_add_eq_sum, range_sum_closed, Int.toNat_of_nonneg (by omega)]
    ring

theorem sum_to_n_c_eq (n : Int) :
    sum_to_n_c n = if n < 0 then 0 else n * (n + 1) / 2 := by
  have key : ∀ (k : Nat) (n : Int), n.toNat = k →
      sum_to_n_c n = if n < 0 then 0 else n * (n + 1) / 2 := by
    intro k
    induction k with
    | zero =>
      intro n hn
      have h0 : n ≤ 0 := by omega
      rw [sum_to_n_c, dif_pos h0]
      rcases lt_or_eq_of_le h0 with h | h
      · rw [if_pos h]
      · rw [if_neg (by omega), h]
        norm_num
    | succ k ih =>
      intro n hn
      have hpos : 0 < n := by omega
      rw [sum_to_n_c, dif_neg (by omega), ih (n - 1) (by omega),
        if_neg (by omega), if_neg (by omega)]
      obtain ⟨a, ha⟩ := Int.even_mul_succ_self (n - 1)
      obtain ⟨b, hb⟩ := Int.even_mul_succ_self n
      have ha2 : (n - 1) * (n - 1 + 1) = 2 * a := by linear_combination ha
      have hb2 : n * (n + 1) = 2 * b := by linear_combination hb
      rw [ha2, hb2, Int.mul_ediv_cancel_left _ (by norm_num),
        Int.mul_ediv_cancel_left _ (by norm_num)]
      have h3 : 2 * b = 2 * a + 2 * n := by linear_combination ha2 - hb2
      omega
  exact key n.toNat n rfl

/-- C9: the four sum-to-n implementations are extensionally equal, and their
common value is `n * (n + 1) / 2` for `n ≥ 0` and `0` for `n < 0`. -/
theorem sum_to_n_abcd_equiv (n : Int) :
    sum_to_n_a n = sum_to_n_b n ∧ sum_to_n_b n = sum_to_n_c n ∧
    sum_to_n_c n = sum_to_n_d n ∧
    sum_to_n_a n = (if n < 0 then 0 else n * (n + 1) / 2) := by
  have ha := sum_to_n_a_eq n
  have hc := sum_to_n_c_eq n
  have hd := sum_to_n_d_eq n
  have hb : sum_to_n_b n = if n < 0 then 0 else n * (n + 1) / 2 := rfl
  exact ⟨by rw [ha, hb], by rw [hb, hc], by rw [hc, hd], ha⟩

/-! ## Theorems, part 2: book routes -/

/-- C10: whenever the `:id` path parameter parses to `NaN`, each of the three
id-routes answers `400 "Invalid book ID"` and leaves the store untouched; the
response is the same for every store, so the store is neither read nor
modified. -/
theorem invalid_book_id_rejected (idStr : String) (body : BookBody)
    (store : List Book) (h : jsParseInt idStr = none) :
    getBookById idStr store = (.badRequest "Invalid book ID", store) ∧
    putBookById idStr body store = (.badRequest "Invalid book ID", store) ∧
    deleteBookById idStr store = (.badRequest "Invalid book ID", store) := by
  unfold getBookById putBookById deleteBookById
  simp only [h]
  exact ⟨trivial, trivial, trivial⟩

/-- Witness for C10 at the concrete non-numeric id `"abc"`. -/
theorem invalid_book_id_rejected_witness :
    jsParseInt "abc" = none ∧
    getBookById "abc" [] = (.badRequest "Invalid book ID", []) ∧
    putBookById "abc" emptyBookBody [] = (.badRequest "Invalid book ID", []) ∧
    deleteBookById "abc" [] = (.badRequest "Invalid book ID", []) := by
  refine ⟨by rfl, ?_⟩
  exact invalid_book_id_rejected "abc" emptyBookBody [] (by rfl)

/-! ## Theorems, part 3: the award-and-leaderboard protocol -/

theorem step_invalid (st : SystemState) (r : AwardRequest)
    (h : ruleLookup st.rules r.action_type = none) :
    processAward st r = (.invalidAction, st) := by
  unfold processAward
  rw [h]

theorem step_dupIdem (st : SystemState) (r : AwardRequest) (points : Nat)
    (fp : String × String) (prior : AwardResult)
    (hR : ruleLookup st.rules r.action_type = some points)
    (hI : idemLookup st.idemp r.idempotency_key = some (fp, prior))
    (hfp : fp = fingerprint r) :
    processAward st r = (.duplicateIdem prior, st) := by
  unfold processAward
  rw [hR, hI]
  simp [hfp]

theorem step_conflict (st : SystemState) (r : AwardRequest) (points : Nat)
    (fp : String × String) (prior : AwardResult)
    (hR : ruleLookup st.rules r.action_type = some points)
    (hI : idemLookup st.idemp r.idempotency_key = some (fp, prior))
    (hfp : fp ≠ fingerprint r) :
    processAward st r = (.conflict, st) := by
  unfold processAward
  rw [hR, hI]
  simp [hfp]

theorem step_replay (st : SystemState) (r : AwardRequest) (points : Nat)
    (hR : ruleLookup st.rules r.action_type = some points)
    (hI : idemLookup st.idemp r.idempotency_key = none)
    (hm : (r.user_id, r.action_id) ∈ st.replay) :
    processAward st r = (.duplicateReplay, st) := by
  unfold processAward
  rw [hR, hI]
  simp [hm]

theorem step_success (st : SystemState) (r : AwardRequest) (points : Nat)
    (hR : ruleLookup st.rules r.action_type = some points)
    (hI : idemLookup st.idemp r.idempotency_key = none)
    (hm : (r.user_id, r.action_id) ∉ st.replay) :
    processAward st r = (.success (awardRes st r points), successState st r points) := by
  unfold processAward
  rw [hR, hI]
  simp [hm]

/-- Every step either rejects (state unchanged, not a success) or is a fresh
successful award with the canonical result and successor state. -/
theorem processAward_dichotomy (st : SystemState) (r : AwardRequest) :
    ((processAward st r).2 = st ∧ (processAward st r).1.isSuccess = false) ∨
    (∃ points, ruleLookup st.rules r.action_type = some points ∧
      idemLookup st.idemp r.idempotency_key = none ∧
      (r.user_id, r.action_id) ∉ st.replay ∧
      processAward st r = (.success (awardRes st r points), successState st r points)) := by
  cases hR : ruleLookup st.rules r.action_type with
  | none =>
    left
    rw [step_invalid st r hR]
    exact ⟨rfl, rfl⟩
  | some points =>
    cases hI : idemLookup st.idemp r.idempotency_key with
    | some pr =>
      obtain ⟨fp, prior⟩ := pr
      left
      by_cases hfp : fp = fingerprint r
      · rw [step_dupIdem st r points fp prior hR hI hfp]
        exact ⟨rfl, rfl⟩
      · rw [step_conflict st r points fp prior hR hI hfp]
        exact ⟨rfl, rfl⟩
    | none =>
      by_cases hm : (r.user_id, r.action_id) ∈ st.replay
      · left
        rw [step_replay st r points hR hI hm]
        exact ⟨rfl, rfl⟩
      · right
        exact ⟨points, rfl, rfl, hm, step_success st r points hR hI hm⟩

theorem replay_mono (st : SystemState) (r : AwardRequest) (p : String × String)
    (h : p ∈ st.replay) : p ∈ (processAward st r).2.replay := by
  rcases processAward_dichotomy st r with ⟨h2, _⟩ | ⟨points, _, _, _, hEq⟩
  · rw [h2]; exact h
  · rw [hEq]
    exact List.mem_cons_of_mem _ h

theorem seen_no_change (st : SystemState) (r : AwardRequest)
    (h : (r.user_id, r.action_id) ∈ st.replay) :
    (processAward st r).2 = st ∧ (processAward st r).1.isSuccess = false := by
  rcases processAward_dichotomy st r with h2 | ⟨points, _, _, hm, _⟩
  · exact h2
  · exact absurd h hm

theorem success_marks (st : SystemState) (r : AwardRequest)
    (h : (processAward st r).1.isSuccess = true) :
    (r.user_id, r.action_id) ∈ (processAward st r).2.replay := by
  rcases processAward_dichotomy st r with ⟨_, h2⟩ | ⟨points, _, _, _, hEq⟩
  · rw [h2] at h; cases h
  · rw [hEq]
    exact List.mem_cons_self _ _

theorem idemLookup_cons_self (k : String) (v : (String × String) × AwardResult)
    (l : List (String × ((String × String) × AwardResult))) :
    idemLookup ((k, v) :: l) k = some v := by
  simp [idemLookup]

theorem idemLookup_cons_ne (k k' : String) (v : (String × String) × AwardResult)
    (l : List (String × ((String × String) × AwardResult))) (h : k' ≠ k) :
    idemLookup ((k, v) :: l) k' = idemLookup l k' := by
  have hb : (k == k') = false := by
    rw [beq_eq_false_iff_ne]
    exact fun hk => h hk.symm
  simp [idemLookup, List.find?, hb]

theorem successCount_spec (rs : List AwardRequest) :
    ∀ (st : SystemState) (u a : String),
      ((u, a) ∈ st.replay → successCount st u a rs = 0) ∧ successCount st u a rs ≤ 1 := by
  induction rs with
  | nil => intro st u a; exact ⟨fun _ => rfl, by simp [successCount]⟩
  | cons r rs ih =>
    intro st u a
    constructor
    · intro hmem
      rw [successCount]
      have hcond : ¬(r.user_id = u ∧ r.action_id = a ∧
          (processAward st r).1.isSuccess = true) := by
        rintro ⟨h1, h2, h3⟩
        have h4 := (seen_no_change st r (by rw [h1, h2]; exact hmem)).2
        rw [h4] at h3
        cases h3
      rw [if_neg hcond, Nat.zero_add]
      exact (ih (processAward st r).2 u a).1 (replay_mono st r (u, a) hmem)
    · rw [successCount]
      by_cases hcond : (r.user_id = u ∧ r.action_id = a ∧
          (processAward st r).1.isSuccess = true)
      · rw [if_pos hcond]
        have hmem2 : (u, a) ∈ (processAward st r).2.replay := by
          have h5 := success_marks st r hcond.2.2
          rw [hcond.1, hcond.2.1] at h5
          exact h5
        have h0 := (ih (processAward st r).2 u a).1 hmem2
        omega
      · rw [if_neg hcond]
        have h6 := (ih (processAward st r).2 u a).2
        omega

/-- C1: the score increment runs at most once per `(user_id, action_id)` pair:
over any submission sequence at most one step is a fresh successful award for
a given pair, and once the pair is marked in the replay guard, any further
submission for it leaves the state unchanged — one carrying a fresh
idempotency key being rejected as a replay (within the retention window,
which the model keeps unbounded). -/
theorem award_at_most_once_per_action (st : SystemState) (rs : List AwardRequest)
    (r : AwardRequest) (u a : String)
    (hseen : (r.user_id, r.action_id) ∈ st.replay) :
    successCount st u a rs ≤ 1 ∧
    (processAward st r).2 = st ∧
    (∀ points, ruleLookup st.rules r.action_type = some points →
      idemLookup st.idemp r.idempotency_key = none →
      (processAward st r).1 = AwardOutcome.duplicateReplay) := by
  refine ⟨(successCount_spec rs st u a).2, (seen_no_change st r hseen).1, ?_⟩
  intro points hR hI
  rw [step_replay st r points hR hI hseen]

/-- Witness for C1: after U's successful award of A1 under K1, resubmitting A1
under the fresh key K2 changes nothing and is rejected as a replay. -/
theorem award_at_most_once_witness :
    (("U", "A1") ∈ st1.replay) ∧
    successCount st1 "U" "A1" [req2] ≤ 1 ∧
    (processAward st1 req2).2 = st1 ∧
    (∀ points, ruleLookup st1.rules req2.action_type = some points →
      idemLookup st1.idemp req2.idempotency_key = none →
      (processAward st1 req2).1 = AwardOutcome.duplicateReplay) := by
  have h := award_at_most_once_per_action st1 [req2] req2 "U" "A1" (by decide)
  exact ⟨by decide, h⟩

/-- C3: submitting the same `(idempotency_key, payload)` again after a
successful award mutates nothing (the state is unchanged) and hands the second
caller the same stored result that the first caller received. -/
theorem idem_retry_same_result (st : SystemState) (r : AwardRequest)
    (res : AwardResult) (st' : SystemState)
    (h : processAward st r = (.success res, st')) :
    processAward st' r = (.duplicateIdem res, st') := by
  rcases processAward_dichotomy st r with ⟨_, hns⟩ | ⟨points, hR, hI, hm, hEq⟩
  · rw [h] at hns
    cases hns
  · rw [h] at hEq
    injection hEq with h1 h2
    injection h1 with h3
    subst h3
    subst h2
    apply step_dupIdem (successState st r points) r points (fingerprint r)
      (awardRes st r points) hR ?_ rfl
    exact idemLookup_cons_self r.idempotency_key (fingerprint r, awardRes st r points) st.idemp

/-- Witness for C3: replaying U's identical first request returns the stored
result (total 25, delta 25, rank 1) and leaves the state as it was. -/
theorem idem_retry_witness :
    processAward st1 req1 = (.duplicateIdem res1, st1) :=
  idem_retry_same_result stInit req1 res1 st1 (by decide)

/-- C4: reusing an idempotency key with a different payload after a successful
award is rejected as a conflict — never re-executed — and mutates nothing. -/
theorem key_reuse_conflict (st : SystemState) (r r2 : AwardRequest)
    (res : AwardResult) (st' : SystemState) (points2 : Nat)
    (h : processAward st r = (.success res, st'))
    (hkey : r2.idempotency_key = r.idempotency_key)
    (hfp : fingerprint r2 ≠ fingerprint r)
    (hR2 : ruleLookup st.rules r2.action_type = some points2) :
    processAward st' r2 = (.conflict, st') := by
  rcases processAward_dichotomy st r with ⟨_, hns⟩ | ⟨points, hR, hI, hm, hEq⟩
  · rw [h] at hns
    cases hns
  · rw [h] at hEq
    injection hEq with h1 h2
    subst h2
    apply step_conflict (successState st r points) r2 points2 (fingerprint r)
      (awardRes st r points) hR2 ?_ (Ne.symm hfp)
    rw [hkey]
    exact idemLookup_cons_self r.idempotency_key (fingerprint r, awardRes st r points) st.idemp

/-- Witness for C4: reusing key K1 for a different action A9 after U's first
award yields a conflict and leaves the state unchanged. -/
theorem key_reuse_witness :
    processAward st1 req4 = (.conflict, st1) :=
  key_reuse_conflict stInit req1 req4 res1 st1 25 (by decide) (by decide)
    (by decide) (by decide)

/-- C5: an award whose action_type is absent from the active rule table is
rejected with no state change — the total is unchanged and no idempotency,
replay, or score record is created (the whole state is untouched). -/
theorem disabled_action_rejected (st : SystemState) (r : AwardRequest)
    (h : ruleLookup st.rules r.action_type = none) :
    processAward st r = (.invalidAction, st) ∧
    ∀ u, getScore (processAward st r).2.scores u = getScore st.scores u := by
  have h2 := step_invalid st r h
  exact ⟨h2, fun u => by rw [h2]⟩

/-- Witness for C5: the unknown action type `foo` is rejected against the
README rule table, leaving the initial state intact. -/
theorem disabled_action_witness :
    ruleLookup stInit.rules reqFoo.action_type = none ∧
    processAward stInit reqFoo = (.invalidAction, stInit) := by
  have h := disabled_action_rejected stInit reqFoo (by decide)
  exact ⟨by decide, h.1⟩

theorem getScore_setScore (l : List (String × Int)) (u : String) (v : Int) (w : String) :
    getScore (setScore l u v) w = if w = u then v else getScore l w := by
  induction l with
  | nil =>
    by_cases h : w = u
    · simp [setScore, getScore, h]
    · have hb : (u == w) = false := by
        rw [beq_eq_false_iff_ne]
        exact fun hk => h hk.symm
      simp [setScore, getScore, h, hb]
  | cons p rest ih =>
    by_cases hp : p.1 = u
    · have hb : (p.1 == u) = true := by rw [beq_iff_eq]; exact hp
      by_cases h : w = u
      · simp [setScore, getScore, hb, h]
      · have hb2 : (u == w) = false := by
          rw [beq_eq_false_iff_ne]
          exact fun hk => h hk.symm
        have hb3 : (p.1 == w) = false := by
          rw [beq_eq_false_iff_ne]
          rw [hp]
          exact fun hk => h hk.symm
        simp [setScore, getScore, hb, hb2, hb3, h]
    · have hb : (p.1 == u) = false := by rw [beq_eq_false_iff_ne]; exact hp
      by_cases hw : p.1 = w
      · have hb2 : (p.1 == w) = true := by rw [beq_iff_eq]; exact hw
        have hwu : ¬(w = u) := by rw [← hw]; exact hp
        simp [setScore, getScore, hb, hb2, hwu]
      · have hb2 : (p.1 == w) = false := by rw [beq_eq_false_iff_ne]; exact hw
        simp [setScore, getScore, hb, hb2, ih]

theorem successState_rules (st : SystemState) (r : AwardRequest) (points : Nat) :
    (successState st r points).rules = st.rules := rfl

theorem successState_scores (st : SystemState) (r : AwardRequest) (points : Nat) :
    (successState st r points).scores =
      setScore st.scores r.user_id (getScore st.scores r.user_id + points) := rfl

theorem run_sum_general (rs : List AwardRequest) :
    ∀ (st : SystemState) (u : String),
      (∀ r ∈ rs, r.user_id = u) →
      (∀ r ∈ rs, idemLookup st.idemp r.idempotency_key = none) →
      (∀ r ∈ rs, (u, r.action_id) ∉ st.replay) →
      ((rs.map (fun r => r.action_id)).Nodup) →
      ((rs.map (fun r => r.idempotency_key)).Nodup) →
      getScore (runAwards st rs).scores u =
        getScore st.scores u +
          (rs.map (fun r => ((ruleLookup st.rules r.action_type).getD 0 : Int))).sum := by
  induction rs with
  | nil =>
    intro st u _ _ _ _ _
    simp [runAwards]
  | cons r rs ih =>
    intro st u hu hk hrep ha hknd
    have hru : r.user_id = u := hu r (List.mem_cons_self r rs)
    rw [runAwards]
    cases hR : ruleLookup st.rules r.action_type with
    | none =>
      have hstep := step_invalid st r hR
      rw [hstep]
      rw [ih st u (fun r' hr' => hu r' (List.mem_cons_of_mem r hr'))
        (fun r' hr' => hk r' (List.mem_cons_of_mem r hr'))
        (fun r' hr' => hrep r' (List.mem_cons_of_mem r hr'))
        (List.nodup_cons.mp ha).2 (List.nodup_cons.mp hknd).2]
      simp [hR]
    | some points =>
      have hm : (r.user_id, r.action_id) ∉ st.replay := by
        rw [hru]
        exact hrep r (List.mem_cons_self r rs)
      have hstep := step_success st r points hR (hk r (List.mem_cons_self r rs)) hm
      rw [hstep]
      rw [ih (successState st r points) u
        (fun r' hr' => hu r' (List.mem_cons_of_mem r hr'))
        ?_ ?_ (List.nodup_cons.mp ha).2 (List.nodup_cons.mp hknd).2]
      · rw [successState_rules, successState_scores, getScore_setScore,
          if_pos hru.symm, hru]
        simp [hR]
        ring
      · intro r' hr'
        have hne : r'.idempotency_key ≠ r.idempotency_key := by
          intro hEq
          have hin : r.idempotency_key ∈ rs.map (fun r => r.idempotency_key) := by
            rw [← hEq]
            exact List.mem_map_of_mem _ hr'
          exact (List.nodup_cons.mp hknd).1 hin
        rw [show (successState st r points).idemp =
          (r.idempotency_key, (fingerprint r, awardRes st r points)) :: st.idemp from rfl]
        rw [idemLookup_cons_ne _ _ _ _ hne]
        exact hk r' (List.mem_cons_of_mem r hr')
      · intro r' hr'
        rw [show (successState st r points).replay =
          (r.user_id, r.action_id) :: st.replay from rfl]
        intro hmem
        rcases List.mem_cons.mp hmem with hEq | hmem2
        · have ha2 : r'.action_id = r.action_id := congrArg Prod.snd hEq
          have hin : r.action_id ∈ rs.map (fun r => r.action_id) := by
            rw [← ha2]
            exact List.mem_map_of_mem _ hr'
          exact (List.nodup_cons.mp ha).1 hin
        · exact hrep r' (List.mem_cons_of_mem r hr') hmem2

/-- C2: for any sequence of awards all to one user, with pairwise-distinct
action_ids and pairwise-distinct idempotency keys, the user's final total from
the initial state equals the sum of the points resolved from the rule table
(a disabled action resolving to 0 and being rejected) — and since the
right-hand side is a sum over the request multiset, the total is independent
of the order in which the requests are interleaved. -/
theorem distinct_actions_sum (T : RuleTable) (W : Nat) (rs : List AwardRequest)
    (u : String)
    (hu : ∀ r ∈ rs, r.user_id = u)
    (ha : (rs.map (fun r => r.action_id)).Nodup)
    (hk : (rs.map (fun r => r.idempotency_key)).Nodup) :
    getScore (runAwards (initState T W) rs).scores u =
      (rs.map (fun r => ((ruleLookup T r.action_type).getD 0 : Int))).sum := by
  have h := run_sum_general rs (initState T W) u hu
    (fun r _ => rfl) (fun r _ => List.not_mem_nil _) ha hk
  simpa [initState, getScore] using h

/-- Witness for C2: awarding the distinct actions A1 and A2 to U from the
initial state yields exactly 25 + 25 = 50. -/
theorem distinct_actions_sum_witness :
    (∀ r ∈ [req1, req3], r.user_id = "U") ∧
    getScore (runAwards (initState rulesW 100) [req1, req3]).scores "U" =
      (([req1, req3]).map (fun r => ((ruleLookup rulesW r.action_type).getD 0 : Int))).sum ∧
    getScore (runAwards (initState rulesW 100) [req1, req3]).scores "U" = 50 := by
  refine ⟨by decide, ?_, by decide⟩
  exact distinct_actions_sum rulesW 100 [req1, req3] "U" (by decide) (by decide) (by decide)

theorem ruleLookup_mem (T : RuleTable) (a : String) (p : Nat)
    (h : ruleLookup T a = some p) : ∃ k, (k, p) ∈ T.rules := by
  unfold ruleLookup at h
  cases hf : T.rules.find? (fun e => e.1 == a) with
  | none => rw [hf] at h; cases h
  | some e =>
    rw [hf] at h
    simp only [Option.map_some'] at h
    injection h with h2
    refine ⟨e.1, ?_⟩
    have hmem := List.mem_of_find?_eq_some hf
    rw [← h2]
    simpa using hmem

theorem hasUser_setScore_imp (l : List (String × Int)) (u : String) (v : Int)
    (w : String) (h : hasUser (setScore l u v) w = true) :
    hasUser l w = true ∨ w = u := by
  induction l with
  | nil =>
    simp [setScore, hasUser] at h
    exact Or.inr h.symm
  | cons p rest ih =>
    by_cases hp : p.1 = u
    · have hb : (p.1 == u) = true := by rw [beq_iff_eq]; exact hp
      simp only [setScore, hb, if_pos] at h
      simp only [hasUser, Bool.or_eq_true, beq_iff_eq] at h ⊢
      rcases h with h | h
      · exact Or.inr h.symm
      · exact Or.inl (Or.inr h)
    · have hb : (p.1 == u) = false := by rw [beq_eq_false_iff_ne]; exact hp
      simp only [setScore, hb, if_neg, Bool.false_eq_true, ite_false] at h
      simp only [hasUser, Bool.or_eq_true] at h ⊢
      rcases h with h | h
      · exact Or.inl (Or.inl h)
      · rcases ih h with h2 | h2
        · exact Or.inl (Or.inr h2)
        · exact Or.inr h2

/-- C8: every coordinator step keeps all totals monotonically non-decreasing,
a fresh successful award applies a strictly positive delta (under a
well-formed rule table) exactly to its user, score entries are created only
by a first award for that user (the initial store is empty), and an explicit
compensating adjustment is the only operation that can decrease a total —
and only when its delta is negative. -/
theorem award_monotone_positive (st : SystemState) (r : AwardRequest)
    (hwf : RulesWF st.rules) : AwardStepSafe st r := by
  refine ⟨?_, ?_, ?_, fun T W => rfl, ?_⟩
  · intro v
    rcases processAward_dichotomy st r with ⟨h2, _⟩ | ⟨points, hR, hI, hm, hEq⟩
    · rw [h2]
    · rw [hEq, successState_scores, getScore_setScore]
      by_cases hv : v = r.user_id
      · rw [if_pos hv, hv]
        have hnn : (0:Int) ≤ (points : Int) := Int.natCast_nonneg points
        omega
      · rw [if_neg hv]
  · intro res st' h
    rcases processAward_dichotomy st r with ⟨_, hns⟩ | ⟨points, hR, hI, hm, hEq⟩
    · rw [h] at hns
      cases hns
    · rw [h] at hEq
      injection hEq with h1 h2
      injection h1 with h3
      subst h3
      subst h2
      constructor
      · obtain ⟨k, hk⟩ := ruleLookup_mem st.rules r.action_type points hR
        have hpos := hwf (k, points) hk
        show (0:Int) < (points : Int)
        exact_mod_cast hpos
      · rw [successState_scores, getScore_setScore, if_pos rfl]
        rfl
  · intro v hv
    rcases processAward_dichotomy st r with ⟨h2, _⟩ | ⟨points, hR, hI, hm, hEq⟩
    · rw [h2] at hv
      exact Or.inl hv
    · rw [hEq, successState_scores] at hv
      exact hasUser_setScore_imp st.scores r.user_id _ v hv
  · intro v d hlt
    unfold applyAdjustment at hlt
    rw [getScore_setScore, if_pos rfl] at hlt
    omega

/-- Witness for C8 at the README rule table and user U's first request. -/
theorem award_monotone_witness :
    RulesWF stInit.rules ∧ AwardStepSafe stInit req1 :=
  ⟨by unfold RulesWF; decide,
   award_monotone_positive stInit req1 (by unfold RulesWF; decide)⟩

theorem hasUser_iff_mem (l : List (String × Int)) (u : String) :
    hasUser l u = true ↔ u ∈ l.map Prod.fst := by
  induction l with
  | nil => simp [hasUser]
  | cons p rest ih =>
    simp only [hasUser, Bool.or_eq_true, beq_iff_eq, ih, List.map_cons, List.mem_cons]
    constructor
    · rintro (h | h)
      · exact Or.inl h.symm
      · exact Or.inr h
    · rintro (h | h)
      · exact Or.inl h.symm
      · exact Or.inr h

theorem setScore_keys (l : List (String × Int)) (u : String) (v : Int) :
    (setScore l u v).map Prod.fst =
      if hasUser l u = true then l.map Prod.fst else l.map Prod.fst ++ [u] := by
  induction l with
  | nil => simp [setScore, hasUser]
  | cons p rest ih =>
    by_cases hp : p.1 = u
    · have hb : (p.1 == u) = true := by rw [beq_iff_eq]; exact hp
      simp [setScore, hasUser, hb, hp]
    · have hb : (p.1 == u) = false := by rw [beq_eq_false_iff_ne]; exact hp
      simp only [setScore, hb, Bool.false_eq_true, ite_false, List.map_cons,
        hasUser, Bool.false_or, ih]
      split
      · rfl
      · simp

theorem setScore_keys_nodup (l : List (String × Int)) (u : String) (v : Int)
    (h : (l.map Prod.fst).Nodup) : ((setScore l u v).map Prod.fst).Nodup := by
  rw [setScore_keys]
  split
  · exact h
  · rename_i hn
    have hu : u ∉ l.map Prod.fst := fun hmem => hn ((hasUser_iff_mem l u).mpr hmem)
    simp [List.nodup_append, h, hu]

theorem runAwards_keys_nodup (rs : List AwardRequest) :
    ∀ st : SystemState, (st.scores.map Prod.fst).Nodup →
      ((runAwards st rs).scores.map Prod.fst).Nodup := by
  induction rs with
  | nil => intro st h; exact h
  | cons r rs ih =>
    intro st h
    rw [runAwards]
    apply ih
    rcases processAward_dichotomy st r with ⟨h2, _⟩ | ⟨points, _, _, _, hEq⟩
    · rw [h2]; exact h
    · rw [hEq, successState_scores]
      exact setScore_keys_nodup st.scores r.user_id _ h

/-- C6: in every state reachable by a run of award submissions, `topK k` has
length at most `k`, contains no user twice, and is sorted by descending total
with ties resolved by the single documented deterministic tie-break
(ascending user_id). -/
theorem topK_sorted_nodup (T : RuleTable) (W : Nat) (rs : List AwardRequest)
    (k : Nat) :
    (topK (runAwards (initState T W) rs) k).length ≤ k ∧
    ((topK (runAwards (initState T W) rs) k).map Prod.fst).Nodup ∧
    (topK (runAwards (initState T W) rs) k).Pairwise scoreLe := by
  have hnodup : ((runAwards (initState T W) rs).scores.map Prod.fst).Nodup :=
    runAwards_keys_nodup rs (initState T W) (by simp [initState])
  refine ⟨?_, ?_, ?_⟩
  · unfold topK
    rw [List.length_take]
    exact min_le_left _ _
  · unfold topK
    have hperm :
        ((List.insertionSort scoreLe (runAwards (initState T W) rs).scores).map
          Prod.fst).Perm ((runAwards (initState T W) rs).scores.map Prod.fst) :=
      (List.perm_insertionSort scoreLe _).map Prod.fst
    have hnd := hperm.symm.nodup hnodup
    rw [List.map_take]
    exact List.Nodup.sublist (List.take_sublist _ _) hnd
  · unfold topK
    have hs := List.sorted_insertionSort scoreLe (runAwards (initState T W) rs).scores
    exact List.Pairwise.sublist (List.take_sublist _ _) hs

theorem drop_range' : ∀ (i s m : Nat), (List.range' s m).drop i = List.range' (s + i) (m - i) := by
  intro i
  induction i with
  | zero => intro s m; simp
  | succ i ih =>
    intro s m
    cases m with
    | zero => simp [List.range']
    | succ m =>
      rw [List.range'_succ, List.drop_succ_cons, ih (s + 1) m]
      congr 1 <;> omega

theorem publish_inv (n : Notifier) (ev : EventData)
    (h1 : n.events.map ChangeEvent.seq =
      List.range' (n.nextSeq - n.events.length) n.events.length)
    (h2 : n.events.length ≤ n.nextSeq) :
    ((publish n ev).events.map ChangeEvent.seq =
      List.range' ((publish n ev).nextSeq - (publish n ev).events.length)
        (publish n ev).events.length ∧
     (publish n ev).events.length ≤ (publish n ev).nextSeq) ∧
    (publish n ev).nextSeq = n.nextSeq + 1 := by
  have hmap : ((n.events ++ [⟨ev.user_id, ev.delta, ev.new_total, ev.rank, n.nextSeq⟩] :
      List ChangeEvent)).map ChangeEvent.seq =
      List.range' (n.nextSeq - n.events.length) (n.events.length + 1) := by
    rw [List.map_append, h1, List.range'_concat]
    congr 1
    simp
    omega
  have hdrop : (publish n ev).events =
      ((n.events ++ [⟨ev.user_id, ev.delta, ev.new_total, ev.rank, n.nextSeq⟩] :
        List ChangeEvent)).drop ((n.events.length + 1) - n.retention) := by
    unfold publish
    simp
  have hlen : (publish n ev).events.length =
      (n.events.length + 1) - ((n.events.length + 1) - n.retention) := by
    rw [hdrop, List.length_drop]
    simp
  have hnext : (publish n ev).nextSeq = n.nextSeq + 1 := rfl
  refine ⟨⟨?_, ?_⟩, hnext⟩
  · rw [hdrop, List.map_drop, hmap, drop_range', hnext, List.length_drop,
      List.length_append]
    simp only [List.length_singleton]
    congr 1
    all_goals omega
  · rw [hlen, hnext]
    omega

theorem runPublish_inv (ds : List EventData) :
    ∀ n : Notifier,
      n.events.map ChangeEvent.seq =
        List.range' (n.nextSeq - n.events.length) n.events.length →
      n.events.length ≤ n.nextSeq →
      ((runPublish n ds).events.map ChangeEvent.seq =
        List.range' ((runPublish n ds).nextSeq - (runPublish n ds).events.length)
          (runPublish n ds).events.length ∧
       (runPublish n ds).events.length ≤ (runPublish n ds).nextSeq) := by
  induction ds with
  | nil => intro n h1 h2; exact ⟨h1, h2⟩
  | cons ev evs ih =>
    intro n h1 h2
    rw [runPublish]
    obtain ⟨⟨h3, h4⟩, _⟩ := publish_inv n ev h1 h2
    exact ih (publish n ev) h3 h4

theorem runPublish_nextSeq (ds : List EventData) :
    ∀ n, (runPublish n ds).nextSeq = n.nextSeq + ds.length := by
  induction ds with
  | nil => intro n; simp [runPublish]
  | cons ev evs ih =>
    intro n
    rw [runPublish, ih]
    show (publish n ev).nextSeq + evs.length = n.nextSeq + (ev :: evs).length
    rw [show (publish n ev).nextSeq = n.nextSeq + 1 from rfl]
    simp
    omega

/-- C7: for every publish history against one notifier instance, the retained
sequence ids are strictly increasing (each publish is stamped with the next
id, so `nextSeq` counts the history); a subscriber resuming from a position
still inside the retention window gets a stream containing every event
published after that position; and resuming from a position outside the window
yields the explicit gap indication — exactly when the position is below the
retained low-water mark. -/
theorem notifier_delivery (W : Nat) (ds : List EventData) (fromSeq : Nat) :
    List.Pairwise (· < ·)
      ((runPublish (initNotifier W) ds).events.map ChangeEvent.seq) ∧
    (runPublish (initNotifier W) ds).nextSeq = ds.length ∧
    (subscribe (runPublish (initNotifier W) ds) fromSeq = SubscribeResult.gap ↔
      fromSeq + 1 < lowWater (runPublish (initNotifier W) ds)) ∧
    (∀ l, subscribe (runPublish (initNotifier W) ds) fromSeq =
        SubscribeResult.events l →
      ∀ s, fromSeq < s → s < (runPublish (initNotifier W) ds).nextSeq →
        ∃ e ∈ l, e.seq = s) := by
  obtain ⟨hinv, hlen⟩ := runPublish_inv ds (initNotifier W) rfl (Nat.le_refl 0)
  refine ⟨?_, ?_, ?_, ?_⟩
  · rw [hinv]
    exact List.pairwise_lt_range' _ _
  · rw [runPublish_nextSeq ds (initNotifier W)]
    simp [initNotifier]
  · unfold subscribe
    split
    · rename_i hlt
      exact ⟨fun _ => hlt, fun _ => rfl⟩
    · rename_i hlt
      exact ⟨fun h => SubscribeResult.noConfusion h, fun hcond => absurd hcond hlt⟩
  · intro l hl s hs1 hs2
    unfold subscribe at hl
    split at hl
    · exact SubscribeResult.noConfusion hl
    · rename_i hge
      injection hl with hl2
      subst hl2
      have hsm : s ∈ (runPublish (initNotifier W) ds).events.map ChangeEvent.seq := by
        rw [hinv, List.mem_range'_1]
        unfold lowWater at hge
        omega
      obtain ⟨e, he, hseq⟩ := List.mem_map.mp hsm
      refine ⟨e, ?_, hseq⟩
      rw [List.mem_filter]
      refine ⟨he, ?_⟩
      simp only [decide_eq_true_eq]
      omega

/-- Witness for C7: with retention 10 and three publishes, resuming from
sequence id 1 delivers the event with sequence id 2. -/
theorem notifier_delivery_witness :
    ∃ e ∈ [ChangeEvent.mk "U" 5 30 1 2], e.seq = 2 := by
  have h := notifier_delivery 10 dsW 1
  have hsub : subscribe (runPublish (initNotifier 10) dsW) 1 =
      SubscribeResult.events [ChangeEvent.mk "U" 5 30 1 2] := by decide
  exact h.2.2.2 [ChangeEvent.mk "U" 5 30 1 2] hsub 2 (by decide) (by decide)
